import Mathlib

/-!
Verification of the chunked, resumable upload coordinator in
`src/MUI_V1/expandable_eye_rail_mui_data_grid_community.jsx`.

The development shallowly embeds the engineering core of that file:
the `buildChunks` chunk planner, the per-chunk retry loop of
`uploadChunksSequentiallyWithRetry` (retriability classification,
exponential backoff, attempt accounting), the sequential chunk pipeline,
the byte-progress bookkeeping, and the queue scheduler
(`addFilesToQueue`, `pauseUpload`, `resumeUpload`, `cancelUpload`,
and the promotion effect).  JavaScript numbers that can go negative are
modelled as `Int`; counts and 0-based indices as `Nat`; `undefined` as
`Option.none`.  Nonterminating JS loops are embedded with an explicit
fuel parameter, and termination of the source loop is analysed
separately (`chunkLoopDone`).
-/

-- ====================================================================
-- CONFIG / LIMITS / CONSTANTS  (source lines 306-317)
-- ====================================================================

def MAX_FILES : Nat := 100

def MAX_FILE_SIZE_BYTES : Int := 5 * 1024 * 1024 * 1024

def DEFAULT_CHUNK_SIZE : Int := 10 * 1024 * 1024

def MAX_PARALLEL_FILES : Nat := 3

def CHUNK_MAX_RETRIES : Nat := 4

def BACKOFF_BASE_MS : Nat := 800

def BACKOFF_JITTER_MS : Nat := 250

def REQUEST_TIMEOUT_MS : Nat := 2 * 60 * 1000

def STALL_TIMEOUT_MS : Nat := 30 * 1000

-- ====================================================================
-- ChunkPlanner: `buildChunks` (source lines 405-427)
-- ====================================================================

/-- One chunk descriptor, the source's `ChunkMeta` interface.  The source
field `end` is a Lean keyword and is called `stop` here.  `etag` is the
optional backend token (`undefined` becomes `none`). -/
structure ChunkMeta where
  index : Nat
  start : Int
  stop : Int
  uploaded : Bool
  etag : Option String
deriving Repr, DecidableEq

/-- The body of `buildChunks`' for-loop, with an explicit fuel bound on the
number of iterations.  `parts` is `alreadyUploadedParts`; `etags` models the
`partsETags` record (keyed by part number: `String(partNumber)` is injective
on the naturals, so the string key is modelled by the number itself).
Each iteration with `start < size` emits one chunk and advances
`start += chunkSize`, `index++`; the fuel-exhausted base case is never
reached when `0 < chunkSize` and the fuel is at least `size.toNat`
(proved below). -/
def buildChunksAux (size chunkSize : Int) (parts : List Nat)
    (etags : List (Nat × String)) : Nat → Int → Nat → List ChunkMeta
  | 0, _, _ => []
  | fuel + 1, start, index =>
    if start < size then
      let e := min (start + chunkSize) size
      let partNumber := index + 1
      let uploadedAlready := parts.contains partNumber
      { index := index, start := start, stop := e, uploaded := uploadedAlready,
        etag := if uploadedAlready then etags.lookup partNumber else none } ::
        buildChunksAux size chunkSize parts etags fuel (start + chunkSize) (index + 1)
    else []

/-- `buildChunks(size, chunkSize, alreadyUploadedParts, partsETags)`:
the loop starts at `start = 0`, `index = 0`.  Fuel `size.toNat` dominates
the iteration count whenever `0 < chunkSize`. -/
def buildChunks (size chunkSize : Int) (parts : List Nat)
    (etags : List (Nat × String)) : List ChunkMeta :=
  buildChunksAux size chunkSize parts etags size.toNat 0 0

/-- Whether the `for (let start = 0; start < size; start += chunkSize)` loop
of `buildChunks`, currently at `start`, exits within the given number of
iterations.  Used to analyse termination of the source loop itself,
independently of the fuelled embedding. -/
def chunkLoopDone (size chunkSize : Int) : Int → Nat → Bool
  | start, 0 => !(decide (start < size))
  | start, fuel + 1 =>
    if start < size then chunkLoopDone size chunkSize (start + chunkSize) fuel else true

-- Sanity checks against the spec's worked example (25-byte file, chunk 10).
example :
    buildChunks 25 10 [] [] =
      [⟨0, 0, 10, false, none⟩, ⟨1, 10, 20, false, none⟩, ⟨2, 20, 25, false, none⟩] := by
  decide

example :
    buildChunks 25 10 [2] [(2, "e1")] =
      [⟨0, 0, 10, false, none⟩, ⟨1, 10, 20, true, some "e1"⟩, ⟨2, 20, 25, false, none⟩] := by
  decide

example : buildChunks 10 10 [1] [] = [⟨0, 0, 10, true, none⟩] := by decide

-- ====================================================================
-- Characterization of the planner loop
-- ====================================================================

/-- Closed form of the chunk that the loop emits on its `i`-th remaining
iteration when the loop variables currently hold `start` and `index`. -/
def plannedChunk (size chunkSize : Int) (parts : List Nat) (etags : List (Nat × String))
    (start : Int) (index i : Nat) : ChunkMeta :=
  { index := index + i
    start := start + i * chunkSize
    stop := min (start + (i + 1) * chunkSize) size
    uploaded := parts.contains (index + i + 1)
    etag := if parts.contains (index + i + 1) then etags.lookup (index + i + 1) else none }


lemma plannedChunk_zero (size chunkSize : Int) (parts : List Nat)
    (etags : List (Nat × String)) (start : Int) (index : Nat) :
    plannedChunk size chunkSize parts etags start index 0 =
      { index := index, start := start, stop := min (start + chunkSize) size,
        uploaded := parts.contains (index + 1),
        etag := if parts.contains (index + 1) then etags.lookup (index + 1) else none } := by
  unfold plannedChunk
  norm_num

lemma plannedChunk_shift (size chunkSize : Int) (parts : List Nat)
    (etags : List (Nat × String)) (start : Int) (index j : Nat) :
    plannedChunk size chunkSize parts etags (start + chunkSize) (index + 1) j =
      plannedChunk size chunkSize parts etags start index (j + 1) := by
  have hn : index + 1 + j = index + (j + 1) := by omega
  have hstart : start + chunkSize + (j : Int) * chunkSize =
      start + ((j : Nat) + 1 : Nat) * chunkSize := by push_cast; ring
  have hstop : start + chunkSize + ((j : Int) + 1) * chunkSize =
      start + (((j + 1 : Nat) : Int) + 1) * chunkSize := by push_cast; ring
  unfold plannedChunk
  rw [hn, hstart, hstop]

lemma buildChunksAux_getElem (size chunkSize : Int) (parts : List Nat)
    (etags : List (Nat × String)) (hcs : 0 < chunkSize) :
    ∀ (fuel : Nat) (start : Int) (index : Nat),
      size ≤ start + fuel * chunkSize →
      ∀ i : Nat,
        (buildChunksAux size chunkSize parts etags fuel start index)[i]? =
          if start + i * chunkSize < size then
            some (plannedChunk size chunkSize parts etags start index i)
          else none := by
  intro fuel
  induction fuel with
  | zero =>
    intro start index hfuel i
    have hpos : (0 : Int) ≤ (i : Int) * chunkSize :=
      mul_nonneg (Int.ofNat_nonneg i) (le_of_lt hcs)
    simp only [buildChunksAux, List.getElem?_nil]
    rw [if_neg]
    simp only [Nat.cast_zero, zero_mul, add_zero] at hfuel
    linarith
  | succ fuel ih =>
    intro start index hfuel i
    have hstep : ((fuel : Int) + 1) * chunkSize = chunkSize + (fuel : Int) * chunkSize := by
      ring
    by_cases h : start < size
    · simp only [buildChunksAux, if_pos h]
      match i with
      | 0 =>
        simp only [List.getElem?_cons_zero]
        have hcond : start + ((0 : Nat) : Int) * chunkSize < size := by simpa using h
        rw [if_pos hcond, plannedChunk_zero]
      | j + 1 =>
        simp only [List.getElem?_cons_succ]
        have hfuel' : size ≤ (start + chunkSize) + (fuel : Int) * chunkSize := by
          push_cast at hfuel
          linarith [hfuel, hstep]
        rw [ih (start + chunkSize) (index + 1) hfuel' j]
        have harith : start + chunkSize + (j : Int) * chunkSize =
            start + ((j : Int) + 1) * chunkSize := by ring
        rw [plannedChunk_shift]
        by_cases hc : start + ((j : Nat) + 1 : Nat) * chunkSize < size
        · rw [if_pos (by push_cast at hc ⊢; linarith), if_pos hc]
        · rw [if_neg (by push_cast at hc ⊢; linarith), if_neg hc]
    · simp only [buildChunksAux, if_neg h, List.getElem?_nil]
      have hpos : (0 : Int) ≤ (i : Int) * chunkSize :=
        mul_nonneg (Int.ofNat_nonneg i) (le_of_lt hcs)
      rw [if_neg]
      push_neg at h
      linarith

lemma buildChunksAux_length (size chunkSize : Int) (parts : List Nat)
    (etags : List (Nat × String)) (hcs : 0 < chunkSize) :
    ∀ (fuel : Nat) (start : Int) (index : Nat),
      size ≤ start + fuel * chunkSize →
      (buildChunksAux size chunkSize parts etags fuel start index).length =
        ((size - start).toNat + chunkSize.toNat - 1) / chunkSize.toNat := by
  intro fuel
  have hcs' : 0 < chunkSize.toNat := by omega
  induction fuel with
  | zero =>
    intro start index hfuel
    simp only [buildChunksAux, List.length_nil]
    simp only [Nat.cast_zero, zero_mul, add_zero] at hfuel
    have h0 : (size - start).toNat = 0 := by omega
    rw [h0]
    exact (Nat.div_eq_of_lt (by omega)).symm
  | succ fuel ih =>
    intro start index hfuel
    by_cases h : start < size
    · simp only [buildChunksAux, if_pos h, List.length_cons]
      have hfuel' : size ≤ (start + chunkSize) + (fuel : Int) * chunkSize := by
        push_cast at hfuel
        have : ((fuel : Int) + 1) * chunkSize = chunkSize + (fuel : Int) * chunkSize := by ring
        linarith
      rw [ih (start + chunkSize) (index + 1) hfuel']
      set cs := chunkSize.toNat with hcsdef
      set d := (size - start).toNat with hddef
      have hd1 : 1 ≤ d := by omega
      have hsub : (size - (start + chunkSize)).toNat = d - cs := by omega
      rw [hsub]
      rcases le_or_lt d cs with hdc | hdc
      · have hz : d - cs = 0 := by omega
        rw [hz]
        have hl : (d + cs - 1) / cs = 1 := by
          apply Nat.div_eq_of_lt_le <;> omega
        have hr : (0 + cs - 1) / cs = 0 := Nat.div_eq_of_lt (by omega)
        omega
      · have hnum : d + cs - 1 = (d - cs + cs - 1) + cs := by omega
        rw [hnum, Nat.add_div_right _ hcs']
    · simp only [buildChunksAux, if_neg h, List.length_nil]
      have h0 : (size - start).toNat = 0 := by omega
      rw [h0]
      exact (Nat.div_eq_of_lt (by omega)).symm

lemma buildChunks_fuel_ok (size chunkSize : Int) (hcs : 0 < chunkSize) :
    size ≤ 0 + (size.toNat : Int) * chunkSize := by
  have h1 : size ≤ (size.toNat : Int) := Int.self_le_toNat size
  have h2 : (size.toNat : Int) * 1 ≤ (size.toNat : Int) * chunkSize :=
    mul_le_mul_of_nonneg_left (by omega) (by positivity)
  linarith

lemma buildChunks_getElem (size chunkSize : Int) (parts : List Nat)
    (etags : List (Nat × String)) (hcs : 0 < chunkSize) (i : Nat) :
    (buildChunks size chunkSize parts etags)[i]? =
      if (i : Int) * chunkSize < size then
        some (plannedChunk size chunkSize parts etags 0 0 i)
      else none := by
  unfold buildChunks
  rw [buildChunksAux_getElem size chunkSize parts etags hcs size.toNat 0 0
    (buildChunks_fuel_ok size chunkSize hcs) i]
  simp

lemma buildChunks_length (size chunkSize : Int) (parts : List Nat)
    (etags : List (Nat × String)) (hcs : 0 < chunkSize) :
    (buildChunks size chunkSize parts etags).length =
      (size.toNat + chunkSize.toNat - 1) / chunkSize.toNat := by
  unfold buildChunks
  rw [buildChunksAux_length size chunkSize parts etags hcs size.toNat 0 0
    (buildChunks_fuel_ok size chunkSize hcs)]
  norm_num

-- ====================================================================
-- C1: partition property of the planner
-- ====================================================================

/-- C1: for every file size and positive chunk size, the chunk list produced
by `buildChunks` partitions `[0, fileSize)` exactly once: chunk 0 starts at
byte 0, each chunk's `stop` equals the next chunk's `start`, every chunk is
nonempty, lies inside `[0, fileSize]` and spans at most `chunkSize` bytes,
the last chunk ends exactly at `fileSize`, and the number of chunks equals
`ceil(fileSize / chunkSize)` (written with natural subtraction/division,
which agrees with the rational ceiling for nonnegative sizes).  The
`0 < chunkSize` hypothesis is the termination precondition established by
the C10 analysis. -/
theorem claim_C1_partition (size chunkSize : Int) (parts : List Nat)
    (etags : List (Nat × String)) (hcs : 0 < chunkSize) :
    (∀ c : ChunkMeta, (buildChunks size chunkSize parts etags)[0]? = some c → c.start = 0) ∧
    (∀ (i : Nat) (a b : ChunkMeta), (buildChunks size chunkSize parts etags)[i]? = some a →
      (buildChunks size chunkSize parts etags)[i + 1]? = some b → a.stop = b.start) ∧
    (∀ (i : Nat) (c : ChunkMeta), (buildChunks size chunkSize parts etags)[i]? = some c →
      c.index = i ∧ 0 ≤ c.start ∧ c.start < c.stop ∧ c.stop ≤ size ∧
        c.stop - c.start ≤ chunkSize) ∧
    (∀ h : buildChunks size chunkSize parts etags ≠ [],
      ((buildChunks size chunkSize parts etags).getLast h).stop = size) ∧
    (buildChunks size chunkSize parts etags).length =
      (size.toNat + chunkSize.toNat - 1) / chunkSize.toNat := by
  refine ⟨?_, ?_, ?_, ?_, buildChunks_length size chunkSize parts etags hcs⟩
  · intro c h
    rw [buildChunks_getElem size chunkSize parts etags hcs 0] at h
    split_ifs at h with hc
    rw [← Option.some.inj h]
    simp [plannedChunk]
  · intro i a b ha hb
    rw [buildChunks_getElem size chunkSize parts etags hcs i] at ha
    rw [buildChunks_getElem size chunkSize parts etags hcs (i + 1)] at hb
    split_ifs at ha with hca
    split_ifs at hb with hcb
    rw [← Option.some.inj ha, ← Option.some.inj hb]
    simp only [plannedChunk]
    push_cast at hcb ⊢
    rw [min_eq_left (by linarith)]
  · intro i c h
    rw [buildChunks_getElem size chunkSize parts etags hcs i] at h
    split_ifs at h with hc
    rw [← Option.some.inj h]
    have hnn : (0 : Int) ≤ (i : Int) * chunkSize :=
      mul_nonneg (Int.ofNat_nonneg i) (le_of_lt hcs)
    refine ⟨by simp [plannedChunk], by simpa [plannedChunk] using hnn, ?_, ?_, ?_⟩
    · simp only [plannedChunk]
      apply lt_min <;> linarith
    · simp only [plannedChunk]
      exact min_le_right _ _
    · simp only [plannedChunk]
      nlinarith [min_le_left ((0 : Int) + ((i : Int) + 1) * chunkSize) size]
  · intro hne
    obtain ⟨n, hn⟩ : ∃ n, (buildChunks size chunkSize parts etags).length = n + 1 :=
      ⟨(buildChunks size chunkSize parts etags).length - 1,
        by have := List.length_pos.mpr hne; omega⟩
    have h1 : (buildChunks size chunkSize parts etags)[n]? =
        some ((buildChunks size chunkSize parts etags).getLast hne) := by
      have hlt : n < (buildChunks size chunkSize parts etags).length := by omega
      rw [List.getElem?_eq_getElem hlt, List.getLast_eq_getElem]
      simp only [hn, Nat.add_sub_cancel]
    have h2 : (buildChunks size chunkSize parts etags)[n + 1]? = none :=
      List.getElem?_eq_none (by omega)
    rw [buildChunks_getElem size chunkSize parts etags hcs] at h1 h2
    split_ifs at h1 with hc1
    split_ifs at h2 with hc2
    have hstop : ((buildChunks size chunkSize parts etags).getLast hne).stop =
        min (0 + ((n : Int) + 1) * chunkSize) size := by
      rw [← Option.some.inj h1]
      simp [plannedChunk]
    rw [hstop]
    apply min_eq_right
    push_cast at hc2 ⊢
    linarith

/-- Witness for C1 at the spec's worked example: a 25-byte file with chunk
size 10. -/
theorem claim_C1_partition_witness :
    (0 : Int) < 10 ∧
    ((∀ c : ChunkMeta, (buildChunks 25 10 [] [])[0]? = some c → c.start = 0) ∧
    (∀ (i : Nat) (a b : ChunkMeta), (buildChunks 25 10 [] [])[i]? = some a →
      (buildChunks 25 10 [] [])[i + 1]? = some b → a.stop = b.start) ∧
    (∀ (i : Nat) (c : ChunkMeta), (buildChunks 25 10 [] [])[i]? = some c →
      c.index = i ∧ 0 ≤ c.start ∧ c.start < c.stop ∧ c.stop ≤ 25 ∧
        c.stop - c.start ≤ 10) ∧
    (∀ h : buildChunks 25 10 [] [] ≠ [],
      ((buildChunks 25 10 [] []).getLast h).stop = 25) ∧
    (buildChunks 25 10 [] []).length =
      ((25 : Int).toNat + (10 : Int).toNat - 1) / (10 : Int).toNat) :=
  ⟨by norm_num, claim_C1_partition 25 10 [] [] (by norm_num)⟩

-- ====================================================================
-- C2: resume idempotence
-- ====================================================================

/-- C2: `buildChunks` with already-uploaded part numbers and etags produces
the same indices, starts and stops as the fresh plan
`buildChunks size chunkSize [] []`; only the `uploaded` flag (true exactly
for listed 1-based part numbers) and the `etag` (the supplied one, when
uploaded) differ, and chunks of unlisted parts are identical to the fresh
plan's.  Includes the spec's worked example: a 25-byte file with chunk
size 10 and part 2 already uploaded with etag "e1". -/
theorem claim_C2_resume_idempotence :
    (∀ (size chunkSize : Int) (parts : List Nat) (etags : List (Nat × String)),
      0 < chunkSize →
      (buildChunks size chunkSize parts etags).length =
        (buildChunks size chunkSize [] []).length ∧
      (∀ (i : Nat) (c c0 : ChunkMeta),
        (buildChunks size chunkSize parts etags)[i]? = some c →
        (buildChunks size chunkSize [] [])[i]? = some c0 →
        c.index = c0.index ∧ c.start = c0.start ∧ c.stop = c0.stop ∧
        c0.uploaded = false ∧ c0.etag = none ∧
        c.uploaded = parts.contains (c.index + 1) ∧
        (c.uploaded = true → c.etag = etags.lookup (c.index + 1)) ∧
        (c.uploaded = false → c = c0))) ∧
    buildChunks 25 10 [2] [(2, "e1")] =
      [⟨0, 0, 10, false, none⟩, ⟨1, 10, 20, true, some "e1"⟩,
        ⟨2, 20, 25, false, none⟩] := by
  constructor
  · intro size chunkSize parts etags hcs
    constructor
    · rw [buildChunks_length size chunkSize parts etags hcs,
        buildChunks_length size chunkSize [] [] hcs]
    · intro i c c0 hc hc0
      rw [buildChunks_getElem size chunkSize parts etags hcs i] at hc
      rw [buildChunks_getElem size chunkSize [] [] hcs i] at hc0
      split_ifs at hc hc0 with hcond
      rw [← Option.some.inj hc, ← Option.some.inj hc0]
      refine ⟨rfl, rfl, rfl, by simp [plannedChunk], by simp [plannedChunk], ?_, ?_, ?_⟩
      · simp [plannedChunk]
      · intro hup
        simp only [plannedChunk] at hup ⊢
        rw [if_pos hup]
      · intro hup
        simp only [plannedChunk] at hup ⊢
        rw [hup]
        simp
  · decide

/-- Witness for C2 at the spec's worked example inputs. -/
theorem claim_C2_resume_idempotence_witness :
    (buildChunks 25 10 [2] [(2, "e1")]).length =
      (buildChunks 25 10 [] []).length ∧
    (∀ (i : Nat) (c c0 : ChunkMeta),
      (buildChunks 25 10 [2] [(2, "e1")])[i]? = some c →
      (buildChunks 25 10 [] [])[i]? = some c0 →
      c.index = c0.index ∧ c.start = c0.start ∧ c.stop = c0.stop ∧
      c0.uploaded = false ∧ c0.etag = none ∧
      c.uploaded = [2].contains (c.index + 1) ∧
      (c.uploaded = true → c.etag = [(2, "e1")].lookup (c.index + 1)) ∧
      (c.uploaded = false → c = c0)) :=
  claim_C2_resume_idempotence.1 25 10 [2] [(2, "e1")] (by norm_num)

-- ====================================================================
-- C9: etag presence vs the uploaded flag
-- ====================================================================

lemma buildChunksAux_mem_shape (size chunkSize : Int) (parts : List Nat)
    (etags : List (Nat × String)) :
    ∀ (fuel : Nat) (start : Int) (index : Nat) (c : ChunkMeta),
      c ∈ buildChunksAux size chunkSize parts etags fuel start index →
      c.uploaded = parts.contains (c.index + 1) ∧
      c.etag = (if parts.contains (c.index + 1) then
        etags.lookup (c.index + 1) else none) := by
  intro fuel
  induction fuel with
  | zero =>
    intro start index c hc
    simp [buildChunksAux] at hc
  | succ fuel ih =>
    intro start index c hc
    by_cases h : start < size
    · simp only [buildChunksAux, if_pos h, List.mem_cons] at hc
      rcases hc with rfl | hc
      · exact ⟨rfl, rfl⟩
      · exact ih (start + chunkSize) (index + 1) c hc
    · simp [buildChunksAux, if_neg h] at hc

/-- C9 as stated is false: a part number listed in `alreadyUploadedParts`
whose etag is missing from `partsETags` yields a chunk with `uploaded = true`
but no etag (`partsETags[String(partNumber)]` is `undefined`).  Concretely,
`buildChunks 10 10 [1] []` produces the single chunk
`{index 0, [0,10), uploaded := true, etag := none}`. -/
theorem claim_C9_counterexample :
    ¬ (∀ c ∈ buildChunks 10 10 [1] [], (c.etag.isSome = true ↔ c.uploaded = true)) := by
  decide

/-- C9 amended: in every chunk list produced by `buildChunks`, a chunk
carries an etag if and only if its uploaded flag is true, provided every
already-uploaded part number has an entry in `partsETags`.  (Without that
proviso the right-to-left direction fails, see the counterexample; the
left-to-right direction — an etag is only ever present on an uploaded
chunk — holds unconditionally.) -/
theorem claim_C9_etag_iff_uploaded (size chunkSize : Int) (parts : List Nat)
    (etags : List (Nat × String))
    (hall : ∀ p ∈ parts, (etags.lookup p).isSome = true) :
    ∀ c ∈ buildChunks size chunkSize parts etags,
      (c.etag.isSome = true ↔ c.uploaded = true) := by
  intro c hc
  obtain ⟨hup, hetag⟩ :=
    buildChunksAux_mem_shape size chunkSize parts etags size.toNat 0 0 c hc
  by_cases hcont : parts.contains (c.index + 1) = true
  · rw [hup, hetag, if_pos hcont]
    simp only [hcont, iff_true]
    apply hall
    simpa using hcont
  · rw [hup, hetag, if_neg hcont]
    simp at hcont
    simp [hcont]

/-- Witness for C9 (amended) at the spec's worked example. -/
theorem claim_C9_etag_iff_uploaded_witness :
    ((buildChunks 25 10 [2] [(2, "e1")])[1]? =
      some ⟨1, 10, 20, true, some "e1"⟩) ∧
    ((⟨1, 10, 20, true, some "e1"⟩ : ChunkMeta).etag.isSome = true ↔
      (⟨1, 10, 20, true, some "e1"⟩ : ChunkMeta).uploaded = true) :=
  ⟨by decide,
    claim_C9_etag_iff_uploaded 25 10 [2] [(2, "e1")] (by decide)
      ⟨1, 10, 20, true, some "e1"⟩ (by decide)⟩

-- ====================================================================
-- C10: termination of the planner loop
-- ====================================================================

lemma chunkLoopDone_of_fuel (size chunkSize : Int) :
    ∀ (fuel : Nat) (start : Int), size ≤ start + fuel * chunkSize →
      chunkLoopDone size chunkSize start fuel = true := by
  intro fuel
  induction fuel with
  | zero =>
    intro start hfuel
    simp only [Nat.cast_zero, zero_mul, add_zero] at hfuel
    simp [chunkLoopDone]
    omega
  | succ fuel ih =>
    intro start hfuel
    by_cases h : start < size
    · simp only [chunkLoopDone, if_pos h]
      apply ih
      push_cast at hfuel ⊢
      linarith
    · simp [chunkLoopDone, if_neg h]

lemma chunkLoopDone_stuck (size chunkSize : Int) (hcs : chunkSize ≤ 0) :
    ∀ (fuel : Nat) (start : Int), start < size →
      chunkLoopDone size chunkSize start fuel = false := by
  intro fuel
  induction fuel with
  | zero =>
    intro start h
    simp [chunkLoopDone, h]
  | succ fuel ih =>
    intro start h
    simp only [chunkLoopDone, if_pos h]
    exact ih (start + chunkSize) (by linarith)

/-- C10: the `buildChunks` loop terminates for every file size precisely when
`chunkSize > 0`: with a positive chunk size some iteration bound makes the
loop exit (and any sufficient fuel yields the same chunk list as
`buildChunks`), while for `fileSize > 0` and `chunkSize ≤ 0` the loop
variable never reaches `size`, so no iteration bound whatsoever sees it
exit — the source function does not terminate, which is why `0 < chunkSize`
is a necessary hypothesis for every other ChunkPlanner property. -/
theorem claim_C10_termination (size chunkSize : Int) :
    (0 < chunkSize → ∃ fuel, chunkLoopDone size chunkSize 0 fuel = true) ∧
    (0 < size → chunkSize ≤ 0 → ∀ fuel, chunkLoopDone size chunkSize 0 fuel = false) ∧
    (0 < chunkSize → ∀ (parts : List Nat) (etags : List (Nat × String)) (fuel : Nat),
      size ≤ (fuel : Int) * chunkSize →
      buildChunksAux size chunkSize parts etags fuel 0 0 =
        buildChunks size chunkSize parts etags) := by
  refine ⟨?_, ?_, ?_⟩
  · intro hcs
    exact ⟨size.toNat, chunkLoopDone_of_fuel size chunkSize size.toNat 0
      (buildChunks_fuel_ok size chunkSize hcs)⟩
  · intro hsz hcs fuel
    exact chunkLoopDone_stuck size chunkSize hcs fuel 0 hsz
  · intro hcs parts etags fuel hfuel
    apply List.ext_getElem?_iff.mpr
    intro n
    rw [buildChunksAux_getElem size chunkSize parts etags hcs fuel 0 0
      (by linarith) n]
    rw [buildChunks_getElem size chunkSize parts etags hcs n, zero_add]

/-- Witness for C10: termination at size 7 / chunk 3, nontermination at
size 7 / chunk -2, and fuel-independence of the produced list. -/
theorem claim_C10_termination_witness :
    (∃ fuel, chunkLoopDone 7 3 0 fuel = true) ∧
    (∀ fuel, chunkLoopDone 7 (-2) 0 fuel = false) ∧
    buildChunksAux 25 10 [] [] 30 0 0 = buildChunks 25 10 [] [] :=
  ⟨(claim_C10_termination 7 3).1 (by norm_num),
    (claim_C10_termination 7 (-2)).2.1 (by norm_num) (by norm_num),
    (claim_C10_termination 25 10).2.2 (by norm_num) [] [] 30 (by norm_num)⟩

-- ====================================================================
-- Upload status and the per-chunk retry loop
-- (source lines 326-333 and 1204-1339)
-- ====================================================================

/-- The source's `UploadStatus` union; `"awaiting-file"` is `awaitingFile`. -/
inductive UploadStatus where
  | queued
  | uploading
  | paused
  | done
  | error
  | canceled
  | awaitingFile
deriving DecidableEq, Repr

/-- What the catch-clause of one chunk attempt can observe: the stall and
hard-timeout watchdog flags of that attempt, whether the thrown error is an
axios error, and `err.response?.status` (`none` when there is no response,
e.g. a connection/transport failure or a non-HTTP error such as the
missing-ETag integrity error). -/
structure AttemptError where
  didStall : Bool
  didTimeout : Bool
  isAxios : Bool
  status : Option Nat
deriving DecidableEq, Repr

/-- The retriability classification of source lines 1315-1323:
`didStall || didTimeout || !isAxios || !status || status >= 500 ||
status === 429 || status === 408 || status === 403`.  JavaScript's
`!status` is truthy for both an absent status and a literal `0`, hence the
`none` case and the `s = 0` disjunct. -/
def retriable (e : AttemptError) : Bool :=
  e.didStall || e.didTimeout || !e.isAxios ||
    match e.status with
    | none => true
    | some s => decide (s = 0) || decide (500 ≤ s) || decide (s = 429) ||
        decide (s = 408) || decide (s = 403)

deriving instance DecidableEq for Except

/-- Observable outcome of running the per-chunk retry loop: the final result
(etag or last thrown error), the list of backoff delays slept in order, and
the number of transfer attempts issued. -/
structure RetryTrace where
  result : Except AttemptError String
  delays : List Nat
  attemptsMade : Nat
deriving DecidableEq, Repr

/-- The `while (attempt <= CHUNK_MAX_RETRIES)` loop of
`uploadChunksSequentiallyWithRetry` (source lines 1204-1339) for one chunk.
`oracle n` is the outcome of the `n`-th attempt (0-based): `Except.ok etag`
for a successful PUT carrying an ETag, `Except.error e` for a thrown
failure.  `jitter n` models `Math.floor(Math.random() * BACKOFF_JITTER_MS)`
before the retry following attempt `n`.  The loop body matches the source:
success breaks; a failure rethrows when `attempt >= CHUNK_MAX_RETRIES ||
!retriable`, otherwise sleeps `BACKOFF_BASE_MS * 2^attempt + jitter` and
increments `attempt`.  The first argument is fuel bounding the recursion;
both the fuel-exhausted branch and the loop-condition-false branch are
unreachable from the actual entry point (`attempt = 0` with fuel
`CHUNK_MAX_RETRIES + 1`). -/
def runRetryLoop (oracle : Nat → Except AttemptError String) (jitter : Nat → Nat) :
    Nat → Nat → RetryTrace
  | 0, _ => ⟨Except.error ⟨false, false, false, none⟩, [], 0⟩
  | fuel + 1, attempt =>
    if attempt ≤ CHUNK_MAX_RETRIES then
      match oracle attempt with
      | Except.ok etag => ⟨Except.ok etag, [], 1⟩
      | Except.error e =>
        if CHUNK_MAX_RETRIES ≤ attempt ∨ retriable e = false then
          ⟨Except.error e, [], 1⟩
        else
          let t := runRetryLoop oracle jitter fuel (attempt + 1)
          ⟨t.result, (BACKOFF_BASE_MS * 2 ^ attempt + jitter attempt) :: t.delays,
            t.attemptsMade + 1⟩
    else ⟨Except.error ⟨false, false, false, none⟩, [], 0⟩

/-- One chunk's full retry loop, entered with `attempt = 0`. -/
def retryChunk (oracle : Nat → Except AttemptError String)
    (jitter : Nat → Nat) : RetryTrace :=
  runRetryLoop oracle jitter (CHUNK_MAX_RETRIES + 1) 0

/-- The status `startFileUpload` leaves the record in once the pipeline
finishes or throws (source lines 1059-1108): a throw leaves a user-initiated
`paused`/`canceled` alone and otherwise marks the file `error`; normal
completion likewise respects `paused`/`canceled` and otherwise marks the
file `done`. -/
def fileStatusAfter (statusNow : UploadStatus) (pipelineFailed : Bool) : UploadStatus :=
  if statusNow = UploadStatus.paused ∨ statusNow = UploadStatus.canceled then statusNow
  else if pipelineFailed then UploadStatus.error else UploadStatus.done

example :
    retryChunk (fun _ => Except.error ⟨false, false, true, some 404⟩) (fun _ => 0) =
      ⟨Except.error ⟨false, false, true, some 404⟩, [], 1⟩ := by decide

example :
    retryChunk (fun j => if j < 3 then Except.error ⟨false, false, true, some 500⟩
      else Except.ok "e3") (fun _ => 7) =
      ⟨Except.ok "e3", [807, 1607, 3207], 4⟩ := by decide

lemma runRetryLoop_spec (oracle : Nat → Except AttemptError String)
    (jitter : Nat → Nat) :
    ∀ (fuel a : Nat), fuel + a = CHUNK_MAX_RETRIES + 1 → a ≤ CHUNK_MAX_RETRIES →
      1 ≤ (runRetryLoop oracle jitter fuel a).attemptsMade ∧
      (runRetryLoop oracle jitter fuel a).attemptsMade ≤ fuel ∧
      (runRetryLoop oracle jitter fuel a).delays.length + 1 =
        (runRetryLoop oracle jitter fuel a).attemptsMade ∧
      (∀ k : Nat, (runRetryLoop oracle jitter fuel a).delays[k]? =
        if k < (runRetryLoop oracle jitter fuel a).delays.length then
          some (BACKOFF_BASE_MS * 2 ^ (a + k) + jitter (a + k))
        else none) := by
  intro fuel
  induction fuel with
  | zero =>
    intro a hsum hle
    simp [CHUNK_MAX_RETRIES] at hsum hle
    omega
  | succ fuel ih =>
    intro a hsum hle
    simp only [runRetryLoop, if_pos hle]
    cases hor : oracle a with
    | ok etag => simp
    | error e =>
      by_cases hstop : CHUNK_MAX_RETRIES ≤ a ∨ retriable e = false
      · simp [if_pos hstop]
      · simp only [if_neg hstop]
        push_neg at hstop
        have ha : a + 1 ≤ CHUNK_MAX_RETRIES := hstop.1
        have hsum' : fuel + (a + 1) = CHUNK_MAX_RETRIES + 1 := by omega
        obtain ⟨ih1, ih2, ih3, ih4⟩ := ih (a + 1) hsum' ha
        refine ⟨by simp <;> omega, by simp <;> omega, by simp <;> omega, ?_⟩
        intro k
        match k with
        | 0 => simp
        | k + 1 =>
          simp only [List.getElem?_cons_succ, List.length_cons]
          rw [ih4 k]
          have : a + 1 + k = a + (k + 1) := by omega
          rw [this]
          by_cases hk : k < (runRetryLoop oracle jitter fuel (a + 1)).delays.length
          · rw [if_pos hk, if_pos (by omega)]
          · rw [if_neg hk, if_neg (by omega)]

lemma runRetryLoop_ok_scenario (oracle : Nat → Except AttemptError String)
    (jitter : Nat → Nat) (s : String) :
    ∀ (m : Nat), ∀ (fuel a : Nat), fuel + a = CHUNK_MAX_RETRIES + 1 →
      a + m ≤ CHUNK_MAX_RETRIES →
      (∀ i, i < m → ∃ e, oracle (a + i) = Except.error e ∧ retriable e = true) →
      oracle (a + m) = Except.ok s →
      (runRetryLoop oracle jitter fuel a).result = Except.ok s ∧
      (runRetryLoop oracle jitter fuel a).attemptsMade = m + 1 ∧
      (runRetryLoop oracle jitter fuel a).delays.length = m := by
  intro m
  induction m with
  | zero =>
    intro fuel a hsum hm herr hok
    obtain ⟨fuel, rfl⟩ : ∃ f, fuel = f + 1 := ⟨fuel - 1, by omega⟩
    rw [show a + 0 = a from rfl] at hok
    simp only [runRetryLoop, if_pos (by omega : a ≤ CHUNK_MAX_RETRIES), hok]
    simp
  | succ m ih =>
    intro fuel a hsum hm herr hok
    obtain ⟨fuel, rfl⟩ : ∃ f, fuel = f + 1 := ⟨fuel - 1, by omega⟩
    obtain ⟨e0, he0, hr0⟩ := herr 0 (by omega)
    rw [show a + 0 = a from rfl] at he0
    simp only [runRetryLoop, if_pos (by omega : a ≤ CHUNK_MAX_RETRIES), he0]
    rw [if_neg (by push_neg; exact ⟨by omega, by simp [hr0]⟩)]
    have hsum' : fuel + (a + 1) = CHUNK_MAX_RETRIES + 1 := by omega
    have herr' : ∀ i, i < m → ∃ e, oracle (a + 1 + i) = Except.error e ∧
        retriable e = true := by
      intro i hi
      have := herr (i + 1) (by omega)
      rwa [show a + (i + 1) = a + 1 + i by omega] at this
    have hok' : oracle (a + 1 + m) = Except.ok s := by
      rwa [show a + (m + 1) = a + 1 + m by omega] at hok
    obtain ⟨r1, r2, r3⟩ := ih fuel (a + 1) hsum' (by omega) herr' hok'
    exact ⟨by simpa using r1, by simp [r2], by simp [r3]⟩

lemma runRetryLoop_exhaust_scenario (oracle : Nat → Except AttemptError String)
    (jitter : Nat → Nat) (e : AttemptError) :
    ∀ (fuel a : Nat), fuel + a = CHUNK_MAX_RETRIES + 1 → a ≤ CHUNK_MAX_RETRIES →
      (∀ i, a + i ≤ CHUNK_MAX_RETRIES → ∃ e', oracle (a + i) = Except.error e' ∧
        (a + i < CHUNK_MAX_RETRIES → retriable e' = true)) →
      oracle CHUNK_MAX_RETRIES = Except.error e →
      (runRetryLoop oracle jitter fuel a).result = Except.error e ∧
      (runRetryLoop oracle jitter fuel a).attemptsMade = fuel ∧
      (runRetryLoop oracle jitter fuel a).delays.length = fuel - 1 := by
  intro fuel
  induction fuel with
  | zero =>
    intro a hsum hle
    simp [CHUNK_MAX_RETRIES] at hsum hle
    omega
  | succ fuel ih =>
    intro a hsum hle herr hlast
    obtain ⟨e', he', hr'⟩ := herr 0 (by omega)
    rw [show a + 0 = a from rfl] at he' hr'
    simp only [runRetryLoop, if_pos hle, he']
    by_cases hend : CHUNK_MAX_RETRIES ≤ a
    · have haeq : a = CHUNK_MAX_RETRIES := by omega
      have hee : e' = e := by
        rw [haeq, hlast] at he'
        exact (Except.error.inj he').symm
      rw [if_pos (Or.inl hend), hee]
      have hf : fuel = 0 := by omega
      subst hf
      exact ⟨rfl, rfl, rfl⟩
    · rw [if_neg (by push_neg; exact ⟨by omega, by simp [hr' (by omega)]⟩)]
      have herr' : ∀ i, a + 1 + i ≤ CHUNK_MAX_RETRIES →
          ∃ e', oracle (a + 1 + i) = Except.error e' ∧
            (a + 1 + i < CHUNK_MAX_RETRIES → retriable e' = true) := by
        intro i hi
        have := herr (i + 1) (by omega)
        rwa [show a + (i + 1) = a + 1 + i by omega] at this
      obtain ⟨r1, r2, r3⟩ := ih (a + 1) (by omega) (by omega) herr' hlast
      refine ⟨by simpa using r1, by simp [r2], ?_⟩
      simp only [List.length_cons, r3]
      omega

lemma retryChunk_nonretriable (oracle : Nat → Except AttemptError String)
    (jitter : Nat → Nat) (e : AttemptError) (h0 : oracle 0 = Except.error e)
    (hnr : retriable e = false) :
    retryChunk oracle jitter = ⟨Except.error e, [], 1⟩ := by
  unfold retryChunk
  rw [show CHUNK_MAX_RETRIES + 1 = 4 + 1 from rfl]
  simp only [runRetryLoop, h0]
  rw [if_pos (by norm_num [CHUNK_MAX_RETRIES]), if_pos (Or.inr hnr)]

-- ====================================================================
-- C4: the retriability classification
-- ====================================================================

/-- C4: a failed chunk attempt is classified retriable exactly when the
failure is a stall, a hard timeout, a non-axios or response-less error
(connection/transport errors and the missing-ETag integrity error), or an
HTTP response whose status is 429, 408, 403 or 5xx; any other status —
assuming genuine HTTP statuses (100-599) — is non-retriable, and a
non-retriable error surfaces immediately: the retry loop performs exactly
one attempt, sleeps no backoff delay, and rethrows it. -/
theorem claim_C4_retriable_classification :
    (∀ e : AttemptError, (∀ s, e.status = some s → 100 ≤ s ∧ s ≤ 599) →
      (retriable e = true ↔
        (e.didStall = true ∨ e.didTimeout = true ∨ e.isAxios = false ∨
          e.status = none ∨ e.status = some 429 ∨ e.status = some 408 ∨
          e.status = some 403 ∨ ∃ s, e.status = some s ∧ 500 ≤ s ∧ s ≤ 599))) ∧
    (∀ (oracle : Nat → Except AttemptError String) (jitter : Nat → Nat)
      (e : AttemptError), oracle 0 = Except.error e → retriable e = false →
      retryChunk oracle jitter = ⟨Except.error e, [], 1⟩) := by
  constructor
  · rintro ⟨st, ti, ax, status⟩ hvalid
    cases status with
    | none => simp [retriable]
    | some s =>
      obtain ⟨hs1, hs2⟩ := hvalid s rfl
      cases st <;> cases ti <;> cases ax <;> simp [retriable] <;> omega
  · exact retryChunk_nonretriable

/-- Witness for C4: status 503 is classified retriable, and a 404 failure on
the first attempt stops the loop after a single attempt with no backoff. -/
theorem claim_C4_retriable_classification_witness :
    (retriable ⟨false, false, true, some 503⟩ = true) ∧
    retryChunk (fun _ => Except.error ⟨false, false, true, some 404⟩)
        (fun _ => 0) =
      ⟨Except.error ⟨false, false, true, some 404⟩, [], 1⟩ :=
  ⟨(claim_C4_retriable_classification.1 ⟨false, false, true, some 503⟩
      (by intro s hs; simp at hs; omega)).mpr
      (by right; right; right; right; right; right; right
          exact ⟨503, rfl, by omega, by omega⟩),
    claim_C4_retriable_classification.2 _ _ _ rfl (by decide)⟩

-- ====================================================================
-- C5: attempt budget, backoff and exhaustion
-- ====================================================================

/-- C5: one chunk is attempted at most `CHUNK_MAX_RETRIES + 1 = 5` times;
every retry (and only a retry — never the first attempt) is preceded by a
backoff delay, so the number of delays is one less than the number of
attempts; the delay before the retry following (0-based) attempt `k` is
exactly `BACKOFF_BASE_MS * 2^k + jitter k`, hence lies in
`[800*2^k, 800*2^k + 250)` when the jitter is below `BACKOFF_JITTER_MS`;
a chunk failing retriably 3 times and succeeding on the 4th attempt makes
exactly 4 attempts and observes exactly 3 delays; failing all 5 attempts
surfaces the last attempt's error, and a pipeline failure on a file that
the user has not paused/canceled marks the whole file `error`. -/
theorem claim_C5_retry_budget_and_backoff
    (oracle : Nat → Except AttemptError String) (jitter : Nat → Nat) :
    (retryChunk oracle jitter).attemptsMade ≤ CHUNK_MAX_RETRIES + 1 ∧
    (retryChunk oracle jitter).delays.length + 1 =
      (retryChunk oracle jitter).attemptsMade ∧
    (∀ k : Nat, (retryChunk oracle jitter).delays[k]? =
      if k < (retryChunk oracle jitter).delays.length then
        some (BACKOFF_BASE_MS * 2 ^ k + jitter k) else none) ∧
    ((∀ k, jitter k < BACKOFF_JITTER_MS) →
      ∀ (k d : Nat), (retryChunk oracle jitter).delays[k]? = some d →
        BACKOFF_BASE_MS * 2 ^ k ≤ d ∧ d < BACKOFF_BASE_MS * 2 ^ k + BACKOFF_JITTER_MS) ∧
    (∀ e0 e1 e2 s, oracle 0 = Except.error e0 → oracle 1 = Except.error e1 →
      oracle 2 = Except.error e2 → oracle 3 = Except.ok s →
      retriable e0 = true → retriable e1 = true → retriable e2 = true →
      (retryChunk oracle jitter).result = Except.ok s ∧
      (retryChunk oracle jitter).attemptsMade = 4 ∧
      (retryChunk oracle jitter).delays.length = 3) ∧
    (∀ e0 e1 e2 e3 e4, oracle 0 = Except.error e0 → oracle 1 = Except.error e1 →
      oracle 2 = Except.error e2 → oracle 3 = Except.error e3 →
      oracle 4 = Except.error e4 →
      retriable e0 = true → retriable e1 = true → retriable e2 = true →
      retriable e3 = true →
      (retryChunk oracle jitter).result = Except.error e4 ∧
      (retryChunk oracle jitter).attemptsMade = 5 ∧
      (retryChunk oracle jitter).delays.length = 4 ∧
      fileStatusAfter UploadStatus.uploading true = UploadStatus.error) := by
  obtain ⟨hs1, hs2, hs3, hs4⟩ :=
    runRetryLoop_spec oracle jitter (CHUNK_MAX_RETRIES + 1) 0 (by omega) (by omega)
  refine ⟨hs2, hs3, ?_, ?_, ?_, ?_⟩
  · intro k
    have := hs4 k
    simpa using this
  · intro hj k d hkd
    have := hs4 k
    simp only [retryChunk] at hkd ⊢
    rw [this] at hkd
    split_ifs at hkd with hk
    · have hd : d = BACKOFF_BASE_MS * 2 ^ (0 + k) + jitter (0 + k) :=
        (Option.some.inj hkd).symm
      have := hj (0 + k)
      simp only [Nat.zero_add] at hd this
      omega
  · intro e0 e1 e2 s h0 h1 h2 h3 hr0 hr1 hr2
    have herr : ∀ i, i < 3 → ∃ e, oracle (0 + i) = Except.error e ∧
        retriable e = true := by
      intro i hi
      interval_cases i
      · exact ⟨e0, h0, hr0⟩
      · exact ⟨e1, h1, hr1⟩
      · exact ⟨e2, h2, hr2⟩
    exact runRetryLoop_ok_scenario oracle jitter s 3 (CHUNK_MAX_RETRIES + 1) 0
      (by omega) (by norm_num [CHUNK_MAX_RETRIES]) herr (by simpa using h3)
  · intro e0 e1 e2 e3 e4 h0 h1 h2 h3 h4 hr0 hr1 hr2 hr3
    have herr : ∀ i, 0 + i ≤ CHUNK_MAX_RETRIES →
        ∃ e', oracle (0 + i) = Except.error e' ∧
          (0 + i < CHUNK_MAX_RETRIES → retriable e' = true) := by
      intro i hi
      simp only [Nat.zero_add] at hi ⊢
      have h4' : i ≤ 4 := hi
      interval_cases i
      · exact ⟨e0, h0, fun _ => hr0⟩
      · exact ⟨e1, h1, fun _ => hr1⟩
      · exact ⟨e2, h2, fun _ => hr2⟩
      · exact ⟨e3, h3, fun _ => hr3⟩
      · exact ⟨e4, h4, fun hlt => absurd hlt (by norm_num [CHUNK_MAX_RETRIES])⟩
    obtain ⟨r1, r2, r3⟩ := runRetryLoop_exhaust_scenario oracle jitter e4
      (CHUNK_MAX_RETRIES + 1) 0 (by omega) (by omega) herr h4
    exact ⟨r1, r2, r3, rfl⟩

/-- Witness for C5: a chunk failing three times with HTTP 500 and succeeding
on the 4th attempt, with zero jitter. -/
theorem claim_C5_retry_budget_and_backoff_witness :
    (retryChunk (fun j => if j < 3 then
        Except.error ⟨false, false, true, some 500⟩ else Except.ok "e3")
      (fun _ => 0)).result = Except.ok "e3" ∧
    (retryChunk (fun j => if j < 3 then
        Except.error ⟨false, false, true, some 500⟩ else Except.ok "e3")
      (fun _ => 0)).attemptsMade = 4 ∧
    (retryChunk (fun j => if j < 3 then
        Except.error ⟨false, false, true, some 500⟩ else Except.ok "e3")
      (fun _ => 0)).delays.length = 3 :=
  (claim_C5_retry_budget_and_backoff
      (fun j => if j < 3 then Except.error ⟨false, false, true, some 500⟩
        else Except.ok "e3")
      (fun _ => 0)).2.2.2.2.1
    ⟨false, false, true, some 500⟩ ⟨false, false, true, some 500⟩
    ⟨false, false, true, some 500⟩ "e3" rfl rfl rfl rfl
    (by decide) (by decide) (by decide)

-- ====================================================================
-- C3: strictly sequential chunk pipeline
-- (source lines 1192-1341)
-- ====================================================================

def isOkB : Except AttemptError String → Bool
  | Except.ok _ => true
  | Except.error _ => false

/-- The transfer attempts one chunk's retry loop issues, as
(chunk position, attempt number) pairs in order. -/
def attemptEvents (i : Nat) (t : RetryTrace) : List (Nat × Nat) :=
  (List.range t.attemptsMade).map (fun k => (i, k))

/-- The `for (let i = 0; i < meta.chunks.length; i++)` loop of
`uploadChunksSequentiallyWithRetry`, recorded as the ordered trace of
transfer attempts it issues.  `oracle i k` is the outcome of attempt `k` on
the chunk at position `i`; `jitter i k` the corresponding backoff jitter;
`interrupted i` models reading a `paused`/`canceled` status at the top of
iteration `i` (which throws before sending anything).  A chunk with
`uploaded = true` is skipped without any attempt; otherwise the chunk runs
its full retry loop, and an exhausted/fatal chunk error aborts the whole
loop (the returned Bool tells whether the loop completed normally). -/
def sessionEventsAux (oracle : Nat → Nat → Except AttemptError String)
    (jitter : Nat → Nat → Nat) (interrupted : Nat → Bool) :
    List ChunkMeta → Nat → List (Nat × Nat) × Bool
  | [], _ => ([], true)
  | c :: rest, i =>
    if interrupted i then ([], false)
    else if c.uploaded then sessionEventsAux oracle jitter interrupted rest (i + 1)
    else
      let t := retryChunk (oracle i) (jitter i)
      match t.result with
      | Except.ok _ =>
        let p := sessionEventsAux oracle jitter interrupted rest (i + 1)
        (attemptEvents i t ++ p.1, p.2)
      | Except.error _ => (attemptEvents i t, false)

/-- One file's chunk pipeline, entered at chunk position 0. -/
def sessionEvents (oracle : Nat → Nat → Except AttemptError String)
    (jitter : Nat → Nat → Nat) (interrupted : Nat → Bool)
    (chunks : List ChunkMeta) : List (Nat × Nat) × Bool :=
  sessionEventsAux oracle jitter interrupted chunks 0

lemma attemptEvents_length (i : Nat) (t : RetryTrace) :
    (attemptEvents i t).length = t.attemptsMade := by
  simp [attemptEvents]

lemma attemptEvents_getElem (i m : Nat) (t : RetryTrace) :
    (attemptEvents i t)[m]? =
      if m < t.attemptsMade then some (i, m) else none := by
  unfold attemptEvents
  by_cases h : m < t.attemptsMade
  · rw [if_pos h, List.getElem?_map, List.getElem?_range h]
    rfl
  · rw [if_neg h, List.getElem?_map, List.getElem?_eq_none (by simpa using h)]
    rfl

lemma attemptEvents_mem {i : Nat} {t : RetryTrace} {e : Nat × Nat}
    (h : e ∈ attemptEvents i t) : e.1 = i ∧ e.2 < t.attemptsMade := by
  unfold attemptEvents at h
  simp only [List.mem_map, List.mem_range] at h
  obtain ⟨k, hk, rfl⟩ := h
  exact ⟨rfl, hk⟩

lemma sessionEventsAux_min (oracle : Nat → Nat → Except AttemptError String)
    (jitter : Nat → Nat → Nat) (interrupted : Nat → Bool) :
    ∀ (chunks : List ChunkMeta) (i0 : Nat) (e : Nat × Nat),
      e ∈ (sessionEventsAux oracle jitter interrupted chunks i0).1 → i0 ≤ e.1 := by
  intro chunks
  induction chunks with
  | nil =>
    intro i0 e he
    simp [sessionEventsAux] at he
  | cons c rest ih =>
    intro i0 e he
    by_cases hint : interrupted i0
    · simp [sessionEventsAux, hint] at he
    · by_cases hup : c.uploaded
      · simp only [sessionEventsAux, if_neg hint, if_pos hup] at he
        have := ih (i0 + 1) e he
        omega
      · simp only [sessionEventsAux, if_neg hint, if_neg hup] at he
        cases hres : (retryChunk (oracle i0) (jitter i0)).result with
        | ok s =>
          rw [hres] at he
          simp only [List.mem_append] at he
          rcases he with he | he
          · exact le_of_eq (attemptEvents_mem he).1.symm
          · have := ih (i0 + 1) e he
            omega
        | error err =>
          rw [hres] at he
          exact le_of_eq (attemptEvents_mem he).1.symm

lemma sessionEventsAux_shape (oracle : Nat → Nat → Except AttemptError String)
    (jitter : Nat → Nat → Nat) (interrupted : Nat → Bool) :
    ∀ (chunks : List ChunkMeta) (i0 : Nat) (e : Nat × Nat),
      e ∈ (sessionEventsAux oracle jitter interrupted chunks i0).1 →
      ∃ (j : Nat) (c : ChunkMeta), e.1 = i0 + j ∧ chunks[j]? = some c ∧
        c.uploaded = false := by
  intro chunks
  induction chunks with
  | nil =>
    intro i0 e he
    simp [sessionEventsAux] at he
  | cons c rest ih =>
    intro i0 e he
    by_cases hint : interrupted i0
    · simp [sessionEventsAux, hint] at he
    · by_cases hup : c.uploaded
      · simp only [sessionEventsAux, if_neg hint, if_pos hup] at he
        obtain ⟨j, c', hj, hc', hup'⟩ := ih (i0 + 1) e he
        exact ⟨j + 1, c', by omega, by simpa using hc', hup'⟩
      · simp only [sessionEventsAux, if_neg hint, if_neg hup] at he
        cases hres : (retryChunk (oracle i0) (jitter i0)).result with
        | ok s =>
          rw [hres] at he
          simp only [List.mem_append] at he
          rcases he with he | he
          · refine ⟨0, c, ?_, by simp, by simpa using hup⟩
            have := (attemptEvents_mem he).1
            omega
          · obtain ⟨j, c', hj, hc', hup'⟩ := ih (i0 + 1) e he
            exact ⟨j + 1, c', by omega, by simpa using hc', hup'⟩
        | error err =>
          rw [hres] at he
          refine ⟨0, c, ?_, by simp, ?_⟩
          · have := (attemptEvents_mem he).1
            omega
          · simpa using hup

lemma sessionEventsAux_prior_ok (oracle : Nat → Nat → Except AttemptError String)
    (jitter : Nat → Nat → Nat) (interrupted : Nat → Bool) :
    ∀ (chunks : List ChunkMeta) (i0 : Nat) (j k : Nat),
      (j, k) ∈ (sessionEventsAux oracle jitter interrupted chunks i0).1 →
      ∀ (m : Nat) (c : ChunkMeta), chunks[m]? = some c → i0 + m < j →
        c.uploaded = false →
        isOkB (retryChunk (oracle (i0 + m)) (jitter (i0 + m))).result = true := by
  intro chunks
  induction chunks with
  | nil =>
    intro i0 j k he
    simp [sessionEventsAux] at he
  | cons c rest ih =>
    intro i0 j k he m c' hm hlt hup'
    by_cases hint : interrupted i0
    · simp [sessionEventsAux, hint] at he
    · by_cases hup : c.uploaded
      · simp only [sessionEventsAux, if_neg hint, if_pos hup] at he
        match m with
        | 0 =>
          simp only [List.getElem?_cons_zero] at hm
          rw [← Option.some.inj hm] at hup'
          rw [hup'] at hup
          simp at hup
        | m + 1 =>
          simp only [List.getElem?_cons_succ] at hm
          have := ih (i0 + 1) j k he m c' hm (by omega) hup'
          rwa [show i0 + 1 + m = i0 + (m + 1) by omega] at this
      · simp only [sessionEventsAux, if_neg hint, if_neg hup] at he
        cases hres : (retryChunk (oracle i0) (jitter i0)).result with
        | ok s =>
          rw [hres] at he
          simp only [List.mem_append] at he
          rcases he with he | he
          · have h1 := (attemptEvents_mem he).1
            simp only at h1
            omega
          · match m with
            | 0 =>
              have : i0 + 0 = i0 := by omega
              rw [this, hres]
              rfl
            | m + 1 =>
              simp only [List.getElem?_cons_succ] at hm
              have := ih (i0 + 1) j k he m c' hm (by omega) hup'
              rwa [show i0 + 1 + m = i0 + (m + 1) by omega] at this
        | error err =>
          rw [hres] at he
          have h1 := (attemptEvents_mem he).1
          simp only at h1
          omega

lemma sessionEventsAux_lex (oracle : Nat → Nat → Except AttemptError String)
    (jitter : Nat → Nat → Nat) (interrupted : Nat → Bool) :
    ∀ (chunks : List ChunkMeta) (i0 : Nat) (p q : Nat) (a b : Nat × Nat),
      p < q →
      (sessionEventsAux oracle jitter interrupted chunks i0).1[p]? = some a →
      (sessionEventsAux oracle jitter interrupted chunks i0).1[q]? = some b →
      a.1 < b.1 ∨ (a.1 = b.1 ∧ a.2 < b.2) := by
  intro chunks
  induction chunks with
  | nil =>
    intro i0 p q a b hpq hp hq
    simp [sessionEventsAux] at hp
  | cons c rest ih =>
    intro i0 p q a b hpq hp hq
    by_cases hint : interrupted i0
    · simp [sessionEventsAux, hint] at hp
    · by_cases hup : c.uploaded
      · simp only [sessionEventsAux, if_neg hint, if_pos hup] at hp hq
        exact ih (i0 + 1) p q a b hpq hp hq
      · simp only [sessionEventsAux, if_neg hint, if_neg hup] at hp hq
        cases hres : (retryChunk (oracle i0) (jitter i0)).result with
        | ok s =>
          rw [hres] at hp hq
          set n := (retryChunk (oracle i0) (jitter i0)).attemptsMade with hn
          have hlen : (attemptEvents i0 (retryChunk (oracle i0) (jitter i0))).length = n :=
            attemptEvents_length i0 _
          rw [List.getElem?_append] at hp hq
          rw [hlen] at hp hq
          by_cases hpn : p < n
          · rw [if_pos hpn, attemptEvents_getElem, if_pos (by omega)] at hp
            by_cases hqn : q < n
            · rw [if_pos hqn, attemptEvents_getElem, if_pos (by omega)] at hq
              rw [← Option.some.inj hp, ← Option.some.inj hq]
              exact Or.inr ⟨rfl, hpq⟩
            · rw [if_neg hqn] at hq
              have hbmem := List.getElem?_mem hq
              have hb1 := sessionEventsAux_min oracle jitter interrupted rest
                (i0 + 1) b hbmem
              rw [← Option.some.inj hp]
              exact Or.inl (by simpa using by omega : (i0, p).1 < b.1)
          · rw [if_neg hpn] at hp
            have hqn : ¬ q < n := by omega
            rw [if_neg hqn] at hq
            exact ih (i0 + 1) (p - n) (q - n) a b (by omega) hp hq
        | error err =>
          rw [hres] at hp hq
          rw [attemptEvents_getElem] at hp hq
          split_ifs at hp hq with h1 h2
          rw [← Option.some.inj hp, ← Option.some.inj hq]
          exact Or.inr ⟨rfl, hpq⟩

/-- C3: within one file's session the trace of chunk transfers is strictly
sequential: the (chunk position, attempt) pairs that the pipeline issues are
lexicographically strictly increasing — every attempt of chunk `i` precedes
every attempt of chunk `j > i`, so chunk `i+1` never starts before chunk
`i`'s terminal outcome; only chunks with `uploaded = false` are ever sent
(a chunk pre-marked uploaded is skipped, never re-sent on resume); and when
any attempt of chunk `j` is issued, every earlier not-yet-uploaded chunk's
retry loop had already finished in success. -/
theorem claim_C3_sequential (oracle : Nat → Nat → Except AttemptError String)
    (jitter : Nat → Nat → Nat) (interrupted : Nat → Bool)
    (chunks : List ChunkMeta) :
    (∀ (p q : Nat) (a b : Nat × Nat), p < q →
      (sessionEvents oracle jitter interrupted chunks).1[p]? = some a →
      (sessionEvents oracle jitter interrupted chunks).1[q]? = some b →
      a.1 < b.1 ∨ (a.1 = b.1 ∧ a.2 < b.2)) ∧
    (∀ (i k : Nat), (i, k) ∈ (sessionEvents oracle jitter interrupted chunks).1 →
      ∃ c : ChunkMeta, chunks[i]? = some c ∧ c.uploaded = false) ∧
    (∀ (i j k : Nat) (c : ChunkMeta),
      (j, k) ∈ (sessionEvents oracle jitter interrupted chunks).1 → i < j →
      chunks[i]? = some c → c.uploaded = false →
      isOkB (retryChunk (oracle i) (jitter i)).result = true) := by
  refine ⟨?_, ?_, ?_⟩
  · intro p q a b hpq hp hq
    exact sessionEventsAux_lex oracle jitter interrupted chunks 0 p q a b hpq hp hq
  · intro i k he
    obtain ⟨j, c, hj, hc, hup⟩ :=
      sessionEventsAux_shape oracle jitter interrupted chunks 0 (i, k) he
    simp only at hj
    exact ⟨c, by rwa [show i = j by omega], hup⟩
  · intro i j k c he hij hc hup
    have := sessionEventsAux_prior_ok oracle jitter interrupted chunks 0 j k he
      i c hc (by omega) hup
    simpa using this

/-- Witness for C3: two pending chunks, every attempt succeeding — the trace
is [(0,0), (1,0)], in ascending order, over non-uploaded chunks only, and
chunk 1 is only reached because chunk 0's retry loop succeeded. -/
theorem claim_C3_sequential_witness :
    ((0 : Nat) < 1 ∨ ((0 : Nat) = 1 ∧ (0 : Nat) < 0)) ∧
    (∃ c : ChunkMeta,
      ([⟨0, 0, 5, false, none⟩, ⟨1, 5, 10, false, none⟩] : List ChunkMeta)[1]? =
        some c ∧ c.uploaded = false) ∧
    isOkB (retryChunk (fun _ => Except.ok "e") (fun _ => 0)).result = true :=
  ⟨(claim_C3_sequential (fun _ _ => Except.ok "e") (fun _ _ => 0) (fun _ => false)
      [⟨0, 0, 5, false, none⟩, ⟨1, 5, 10, false, none⟩]).1 0 1 (0, 0) (1, 0)
      (by decide) (by decide) (by decide),
    (claim_C3_sequential (fun _ _ => Except.ok "e") (fun _ _ => 0) (fun _ => false)
      [⟨0, 0, 5, false, none⟩, ⟨1, 5, 10, false, none⟩]).2.1 1 0 (by decide),
    (claim_C3_sequential (fun _ _ => Except.ok "e") (fun _ _ => 0) (fun _ => false)
      [⟨0, 0, 5, false, none⟩, ⟨1, 5, 10, false, none⟩]).2.2 0 1 0
      ⟨0, 0, 5, false, none⟩ (by decide) (by decide) (by decide) (by decide)⟩

-- ====================================================================
-- C6: cumulative uploadedBytes bookkeeping
-- (source lines 1233-1305)
-- ====================================================================

/-- The events that can touch a record's `uploadedBytes` during one file's
chunk pipeline.  `attemptStart` is the `uploadedBytesBefore` snapshot taken
at the top of each ATTEMPT (source line 1234 sits inside the retry
while-loop, although its comment says "snapshot of bytes uploaded BEFORE
this chunk"); `progress loaded` is the `onUploadProgress` handler setting
`uploadedBytes := uploadedBytesBefore + evt.loaded` (line 1246); `chunkDone
len` is the successful-PUT update setting `uploadedBytes :=
uploadedBytesBefore + (end - start)` (line 1294). -/
inductive ByteEvent where
  | attemptStart
  | progress (loaded : Nat)
  | chunkDone (chunkLen : Nat)
deriving DecidableEq, Repr

structure ByteState where
  uploadedBytes : Nat
  uploadedBytesBefore : Nat
deriving DecidableEq, Repr

def stepBytes (s : ByteState) : ByteEvent → ByteState
  | ByteEvent.attemptStart => { s with uploadedBytesBefore := s.uploadedBytes }
  | ByteEvent.progress loaded =>
    { s with uploadedBytes := s.uploadedBytesBefore + loaded }
  | ByteEvent.chunkDone len =>
    { s with uploadedBytes := s.uploadedBytesBefore + len }

def runBytes (s : ByteState) (evs : List ByteEvent) : ByteState :=
  evs.foldl stepBytes s

/-- C6 fails on the code: because `uploadedBytesBefore` is re-read at the
top of every ATTEMPT (not once per chunk, as the adjacent comment and the
spec's invariant `uploadedBytes = sum of uploaded chunks` intend), a failed
attempt's partial progress is double-counted by the retry.  For a 10-byte
single-chunk file whose first attempt reports 5 transferred bytes and then
fails retriably, the successful second attempt ends with
`uploadedBytes = 5 + 10 = 15 > fileSize = 10`.  (The non-decreasing half of
the claim is what the per-attempt snapshot does preserve; the `never
exceeds fileSize` half is violated.) -/
theorem claim_C6_uploadedBytes_overcount :
    (runBytes ⟨0, 0⟩
      [ByteEvent.attemptStart, ByteEvent.progress 5,
        ByteEvent.attemptStart, ByteEvent.progress 10,
        ByteEvent.chunkDone 10]).uploadedBytes = 15 ∧
    ¬ ((runBytes ⟨0, 0⟩
      [ByteEvent.attemptStart, ByteEvent.progress 5,
        ByteEvent.attemptStart, ByteEvent.progress 10,
        ByteEvent.chunkDone 10]).uploadedBytes ≤ 10) := by
  decide

-- ====================================================================
-- UploadQueueScheduler: enqueue / pause / resume / cancel / promotion
-- (source lines 905-1049)
-- ====================================================================

/-- The fields of a dropped browser `File` the scheduler reads. -/
structure JsFile where
  name : String
  size : Int
  lastModified : Int
deriving DecidableEq, Repr

/-- The toasts `addFilesToQueue` pushes: the single "Upload limit reached
(100 files)" warning, the per-file "exceeds 5GB limit" error, and the
per-file "Resuming…" info. -/
inductive Notice where
  | limitReached
  | oversize (name : String)
  | resuming (name : String)
deriving DecidableEq, Repr

/-- The slice of the source's `UploadFileMeta` record the scheduler claims
touch: the id, whether the live `file` handle is present, the resume
fingerprint (name/size/lastModified), and the status.  The progress and
chunk bookkeeping fields are carried by the pipeline models above. -/
structure UploadRec where
  id : Nat
  hasFile : Bool
  fileName : String
  fileSize : Int
  fileLastModified : Option Int
  status : UploadStatus
deriving DecidableEq, Repr

/-- The `awaiting-file` matcher of `addFilesToQueue` (source lines 921-929).
JavaScript's `u.fileLastModified ? u.fileLastModified === file.lastModified
: true` skips the timestamp check when the stored timestamp is absent or a
falsy `0`. -/
def matchesAwaiting (f : JsFile) (u : UploadRec) : Bool :=
  u.status == UploadStatus.awaitingFile && u.fileName == f.name &&
    u.fileSize == f.size &&
    (match u.fileLastModified with
     | none => true
     | some lm => if lm = 0 then true else lm == f.lastModified)

/-- In-place update of the record at one position (`next[idx] = {...}`). -/
def modifyAt : List UploadRec → Nat → (UploadRec → UploadRec) → List UploadRec
  | [], _, _ => []
  | u :: rest, 0, g => g u :: rest
  | u :: rest, n + 1, g => u :: modifyAt rest n g

/-- A freshly enqueued record (source lines 942-958); `createUUID` is
modelled by drawing the id from a monotone counter. -/
def newUploadRec (counter : Nat) (f : JsFile) : UploadRec :=
  { id := counter, hasFile := true, fileName := f.name, fileSize := f.size,
    fileLastModified := some f.lastModified, status := UploadStatus.queued }

/-- Attaching a reselected file to an `awaiting-file` placeholder
(source lines 931-939). -/
def attachFile (f : JsFile) (u : UploadRec) : UploadRec :=
  { u with
    hasFile := true
    status := UploadStatus.queued
    fileLastModified := some f.lastModified }

/-- The file loop of `addFilesToQueue` (source lines 905-964): when the
record count has reached `MAX_FILES` it pushes one `limitReached` warning
and BREAKS; a file over `MAX_FILE_SIZE_BYTES` pushes its own `oversize`
warning and continues; a file matching an `awaiting-file` placeholder is
attached to that record (status back to `queued`); otherwise a fresh queued
record is appended. -/
def addFilesLoop (counter : Nat) (next : List UploadRec) (notices : List Notice) :
    List JsFile → List UploadRec × List Notice × Nat
  | [] => (next, notices, counter)
  | f :: fs =>
    if MAX_FILES ≤ next.length then
      (next, notices ++ [Notice.limitReached], counter)
    else if MAX_FILE_SIZE_BYTES < f.size then
      addFilesLoop counter next (notices ++ [Notice.oversize f.name]) fs
    else
      match next.findIdx? (matchesAwaiting f) with
      | some idx =>
        addFilesLoop counter (modifyAt next idx (attachFile f))
          (notices ++ [Notice.resuming f.name]) fs
      | none =>
        addFilesLoop (counter + 1) (next ++ [newUploadRec counter f]) notices fs

def addFilesToQueue (counter : Nat) (prev : List UploadRec)
    (files : List JsFile) : List UploadRec × List Notice × Nat :=
  addFilesLoop counter prev [] files

/-- `pauseUpload` (source lines 966-978): the matching record keeps `done`
or becomes `paused`; the abort of the in-flight controller is not part of
the record state. -/
def pauseUpload (id : Nat) (l : List UploadRec) : List UploadRec :=
  l.map fun u =>
    if u.id == id then
      { u with status := if u.status == UploadStatus.done then UploadStatus.done
          else UploadStatus.paused }
    else u

/-- `resumeUpload` (source lines 980-988): a non-done matching record goes
back to `queued` (the promotion effect then re-admits it). -/
def resumeUpload (id : Nat) (l : List UploadRec) : List UploadRec :=
  l.map fun u =>
    if u.id == id && !(u.status == UploadStatus.done) then
      { u with status := UploadStatus.queued }
    else u

/-- `cancelUpload` (source lines 990-999): the matching record becomes
`canceled` (backend cleanup is fire-and-forget). -/
def cancelUpload (id : Nat) (l : List UploadRec) : List UploadRec :=
  l.map fun u =>
    if u.id == id then { u with status := UploadStatus.canceled } else u

def uploadingCount (l : List UploadRec) : Nat :=
  (l.filter (fun u => u.status == UploadStatus.uploading)).length

/-- The promotion `useEffect` (source lines 1037-1049) combined with
`startFileUpload`'s immediate transition (lines 1052-1057): it counts the
currently uploading records, computes the remaining capacity, takes that
many queued records that still hold a live file handle, and sets each of
them to `uploading` by id. -/
def promote (l : List UploadRec) : List UploadRec :=
  let capacity := MAX_PARALLEL_FILES - uploadingCount l
  if capacity = 0 then l
  else
    let ids := ((l.filter (fun u =>
      u.status == UploadStatus.queued && u.hasFile)).take capacity).map
        (fun u => u.id)
    l.map fun u =>
      if ids.contains u.id then { u with status := UploadStatus.uploading } else u

structure QueueState where
  recs : List UploadRec
  counter : Nat
deriving DecidableEq, Repr

inductive QAction where
  | enqueue (files : List JsFile)
  | pause (id : Nat)
  | resume (id : Nat)
  | cancel (id : Nat)
deriving DecidableEq, Repr

/-- One user action followed by the promotion effect, which React re-runs
after every `setUploads`. -/
def applyAction (s : QueueState) : QAction → QueueState
  | QAction.enqueue files =>
    let r := addFilesToQueue s.counter s.recs files
    ⟨promote r.1, r.2.2⟩
  | QAction.pause id => ⟨promote (pauseUpload id s.recs), s.counter⟩
  | QAction.resume id => ⟨promote (resumeUpload id s.recs), s.counter⟩
  | QAction.cancel id => ⟨promote (cancelUpload id s.recs), s.counter⟩

def runActions (s : QueueState) (acts : List QAction) : QueueState :=
  acts.foldl applyAction s

def initState : QueueState := ⟨[], 0⟩

example :
    uploadingCount (runActions initState
      [QAction.enqueue [⟨"a", 1, 1⟩, ⟨"b", 1, 1⟩, ⟨"c", 1, 1⟩, ⟨"d", 1, 1⟩,
        ⟨"e", 1, 1⟩]]).recs = 3 := by decide

lemma uploadingCount_countP (l : List UploadRec) :
    uploadingCount l = l.countP (fun u => u.status == UploadStatus.uploading) := by
  rw [uploadingCount, ← List.countP_eq_length_filter]

lemma countP_or_le (p q r : UploadRec → Bool)
    (h : ∀ a, p a = true → q a = true ∨ r a = true) :
    ∀ l : List UploadRec, l.countP p ≤ l.countP q + l.countP r := by
  intro l
  induction l with
  | nil => simp
  | cons a l ih =>
    rw [List.countP_cons, List.countP_cons, List.countP_cons]
    by_cases hp : p a = true
    · rcases h a hp with hx | hx
      · by_cases hr : r a = true <;> simp [hp, hx, hr] <;> omega
      · by_cases hq : q a = true <;> simp [hp, hx, hq] <;> omega
    · by_cases hq : q a = true <;> by_cases hr : r a = true <;>
        simp [hp, hq, hr] <;> omega

lemma map_id_of_preserve (l : List UploadRec) (g : UploadRec → UploadRec)
    (h : ∀ u, (g u).id = u.id) :
    (l.map g).map (fun u => u.id) = l.map (fun u => u.id) := by
  rw [List.map_map]
  exact List.map_congr_left (fun a _ => h a)

lemma countP_contains_le (l : List UploadRec) (ids : List Nat)
    (hnd : (l.map (fun u => u.id)).Nodup) :
    l.countP (fun u => ids.contains u.id) ≤ ids.length := by
  have h1 : l.countP (fun u => ids.contains u.id) =
      (l.map (fun u => u.id)).countP (fun i => ids.contains i) := by
    rw [List.countP_map]
    rfl
  rw [h1, List.countP_eq_length_filter]
  have hsub : (l.map (fun u => u.id)).filter (fun i => ids.contains i) ⊆ ids := by
    intro x hx
    have := (List.mem_filter.mp hx).2
    simpa using this
  have hnd2 : ((l.map (fun u => u.id)).filter (fun i => ids.contains i)).Nodup :=
    hnd.filter _
  exact (List.subperm_of_subset hnd2 hsub).length_le

lemma promote_map_id (l : List UploadRec) :
    (promote l).map (fun u => u.id) = l.map (fun u => u.id) := by
  simp only [promote]
  by_cases h : MAX_PARALLEL_FILES - uploadingCount l = 0
  · rw [if_pos h]
  · rw [if_neg h]
    apply map_id_of_preserve
    intro u
    dsimp only
    split <;> rfl

lemma uploadingCount_promote_le (l : List UploadRec)
    (hnd : (l.map (fun u => u.id)).Nodup)
    (hle : uploadingCount l ≤ MAX_PARALLEL_FILES) :
    uploadingCount (promote l) ≤ MAX_PARALLEL_FILES := by
  simp only [promote]
  by_cases h : MAX_PARALLEL_FILES - uploadingCount l = 0
  · rw [if_pos h]
    exact hle
  · rw [if_neg h]
    set capacity := MAX_PARALLEL_FILES - uploadingCount l with hcap
    set ids := ((l.filter (fun u =>
      u.status == UploadStatus.queued && u.hasFile)).take capacity).map
        (fun u => u.id) with hids
    have hstep : uploadingCount (l.map (fun u =>
        if ids.contains u.id then { u with status := UploadStatus.uploading }
        else u)) ≤
        l.countP (fun u => ids.contains u.id) +
          l.countP (fun u => u.status == UploadStatus.uploading) := by
      rw [uploadingCount_countP, List.countP_map]
      apply countP_or_le
      intro a ha
      by_cases hc : ids.contains a.id = true
      · exact Or.inl hc
      · right
        simp only [Function.comp] at ha
        rw [if_neg hc] at ha
        exact ha
    have hidcount := countP_contains_le l ids hnd
    have hidlen : ids.length ≤ capacity := by
      rw [hids, List.length_map]
      exact (List.length_take_le _ _)
    rw [← uploadingCount_countP] at hstep
    omega

lemma countP_le_countP (p q : UploadRec → Bool) (h : ∀ a, p a = true → q a = true) :
    ∀ l : List UploadRec, l.countP p ≤ l.countP q := by
  intro l
  induction l with
  | nil => simp
  | cons a l ih =>
    rw [List.countP_cons, List.countP_cons]
    by_cases hp : p a = true
    · rw [if_pos hp, if_pos (h a hp)]
      omega
    · rw [if_neg hp]
      split_ifs <;> omega

lemma uploadingCount_map_le (l : List UploadRec) (g : UploadRec → UploadRec)
    (h : ∀ u, (g u).status = UploadStatus.uploading →
      u.status = UploadStatus.uploading) :
    uploadingCount (l.map g) ≤ uploadingCount l := by
  rw [uploadingCount_countP, uploadingCount_countP, List.countP_map]
  apply countP_le_countP
  intro a ha
  have := h a (by simpa using ha)
  simpa using this

lemma forall_id_lt_of_map_eq (l l' : List UploadRec) (c : Nat)
    (hmap : l'.map (fun u => u.id) = l.map (fun u => u.id))
    (h : ∀ u ∈ l, u.id < c) : ∀ u ∈ l', u.id < c := by
  intro u hu
  have hm : u.id ∈ l'.map (fun u => u.id) := List.mem_map_of_mem _ hu
  rw [hmap] at hm
  obtain ⟨v, hv, hvid⟩ := List.mem_map.mp hm
  rw [← hvid]
  exact h v hv

lemma pauseUpload_map_id (id : Nat) (l : List UploadRec) :
    (pauseUpload id l).map (fun u => u.id) = l.map (fun u => u.id) := by
  apply map_id_of_preserve
  intro u
  dsimp only
  split <;> rfl

lemma resumeUpload_map_id (id : Nat) (l : List UploadRec) :
    (resumeUpload id l).map (fun u => u.id) = l.map (fun u => u.id) := by
  apply map_id_of_preserve
  intro u
  dsimp only
  split <;> rfl

lemma cancelUpload_map_id (id : Nat) (l : List UploadRec) :
    (cancelUpload id l).map (fun u => u.id) = l.map (fun u => u.id) := by
  apply map_id_of_preserve
  intro u
  dsimp only
  split <;> rfl

lemma uploadingCount_pause_le (id : Nat) (l : List UploadRec) :
    uploadingCount (pauseUpload id l) ≤ uploadingCount l := by
  apply uploadingCount_map_le
  intro u h
  split at h
  · exfalso
    rcases hdone : (u.status == UploadStatus.done) with _ | _ <;>
      simp [hdone] at h
  · exact h

lemma uploadingCount_resume_le (id : Nat) (l : List UploadRec) :
    uploadingCount (resumeUpload id l) ≤ uploadingCount l := by
  apply uploadingCount_map_le
  intro u h
  split at h
  · simp at h
  · exact h

lemma uploadingCount_cancel_le (id : Nat) (l : List UploadRec) :
    uploadingCount (cancelUpload id l) ≤ uploadingCount l := by
  apply uploadingCount_map_le
  intro u h
  split at h
  · simp at h
  · exact h

lemma modifyAt_map_id (g : UploadRec → UploadRec) (h : ∀ u, (g u).id = u.id) :
    ∀ (l : List UploadRec) (i : Nat),
      (modifyAt l i g).map (fun u => u.id) = l.map (fun u => u.id) := by
  intro l
  induction l with
  | nil => intro i; rfl
  | cons u rest ih =>
    intro i
    match i with
    | 0 => simp [modifyAt, h u]
    | n + 1 => simp [modifyAt, ih n]

lemma uploadingCount_cons (u : UploadRec) (l : List UploadRec) :
    uploadingCount (u :: l) =
      uploadingCount l + if u.status == UploadStatus.uploading then 1 else 0 := by
  rw [uploadingCount_countP, uploadingCount_countP, List.countP_cons]

lemma uploadingCount_modifyAt_le (g : UploadRec → UploadRec)
    (h : ∀ u, (g u).status ≠ UploadStatus.uploading) :
    ∀ (l : List UploadRec) (i : Nat),
      uploadingCount (modifyAt l i g) ≤ uploadingCount l := by
  intro l
  induction l with
  | nil => intro i; simp [modifyAt]
  | cons u rest ih =>
    intro i
    match i with
    | 0 =>
      simp only [modifyAt, uploadingCount_cons]
      have hg : ((g u).status == UploadStatus.uploading) = false := by
        simpa using h u
      rw [hg, if_neg (by simp)]
      split_ifs <;> omega
    | n + 1 =>
      simp only [modifyAt, uploadingCount_cons]
      have := ih n
      omega

lemma uploadingCount_append_new (l : List UploadRec) (counter : Nat) (f : JsFile) :
    uploadingCount (l ++ [newUploadRec counter f]) = uploadingCount l := by
  rw [uploadingCount, uploadingCount, List.filter_append]
  simp [newUploadRec]

lemma addFilesLoop_inv :
    ∀ (files : List JsFile) (counter : Nat) (next : List UploadRec)
      (notices : List Notice),
      (∀ u ∈ next, u.id < counter) → (next.map (fun u => u.id)).Nodup →
      (∀ u ∈ (addFilesLoop counter next notices files).1,
        u.id < (addFilesLoop counter next notices files).2.2) ∧
      ((addFilesLoop counter next notices files).1.map (fun u => u.id)).Nodup ∧
      uploadingCount (addFilesLoop counter next notices files).1 ≤
        uploadingCount next ∧
      counter ≤ (addFilesLoop counter next notices files).2.2 := by
  intro files
  induction files with
  | nil =>
    intro counter next notices h1 h2
    exact ⟨h1, h2, le_refl _, le_refl _⟩
  | cons f fs ih =>
    intro counter next notices h1 h2
    simp only [addFilesLoop]
    split_ifs with hlimit hsize
    · exact ⟨h1, h2, le_refl _, le_refl _⟩
    · exact ih counter next _ h1 h2
    · cases hidx : next.findIdx? (matchesAwaiting f) with
      | some idx =>
        have hmap := modifyAt_map_id (attachFile f) (fun u => rfl) next idx
        have h1' := forall_id_lt_of_map_eq next _ counter hmap h1
        have h2' : ((modifyAt next idx (attachFile f)).map (fun u => u.id)).Nodup := by
          rw [hmap]
          exact h2
        obtain ⟨g1, g2, g3, g4⟩ := ih counter (modifyAt next idx (attachFile f))
          (notices ++ [Notice.resuming f.name]) h1' h2'
        refine ⟨g1, g2, ?_, g4⟩
        calc uploadingCount (addFilesLoop counter (modifyAt next idx (attachFile f))
              (notices ++ [Notice.resuming f.name]) fs).1 ≤
            uploadingCount (modifyAt next idx (attachFile f)) := g3
          _ ≤ uploadingCount next :=
            uploadingCount_modifyAt_le _ (fun u => by simp [attachFile]) next idx
      | none =>
        have h1' : ∀ u ∈ next ++ [newUploadRec counter f], u.id < counter + 1 := by
          intro u hu
          rcases List.mem_append.mp hu with hu | hu
          · have := h1 u hu
            omega
          · rcases List.mem_singleton.mp hu with rfl
            simp [newUploadRec]
        have h2' : ((next ++ [newUploadRec counter f]).map (fun u => u.id)).Nodup := by
          rw [List.map_append]
          rw [List.nodup_append]
          refine ⟨h2, by simp, ?_⟩
          intro x hx
          obtain ⟨v, hv, hvid⟩ := List.mem_map.mp hx
          have := h1 v hv
          simp only [newUploadRec, List.map_cons, List.map_nil, List.mem_singleton]
          omega
        obtain ⟨g1, g2, g3, g4⟩ := ih (counter + 1) (next ++ [newUploadRec counter f])
          notices h1' h2'
        refine ⟨g1, g2, ?_, le_trans (Nat.le_succ counter) g4⟩
        calc uploadingCount (addFilesLoop (counter + 1)
              (next ++ [newUploadRec counter f]) notices fs).1 ≤
            uploadingCount (next ++ [newUploadRec counter f]) := g3
          _ = uploadingCount next := uploadingCount_append_new next counter f

/-- The scheduler's well-formedness: record ids were all drawn below the
counter, ids are pairwise distinct, and at most `MAX_PARALLEL_FILES`
records are uploading. -/
def QInv (s : QueueState) : Prop :=
  (∀ u ∈ s.recs, u.id < s.counter) ∧ (s.recs.map (fun u => u.id)).Nodup ∧
    uploadingCount s.recs ≤ MAX_PARALLEL_FILES

lemma promote_inv (l : List UploadRec) (c : Nat)
    (h1 : ∀ u ∈ l, u.id < c) (h2 : (l.map (fun u => u.id)).Nodup)
    (h3 : uploadingCount l ≤ MAX_PARALLEL_FILES) :
    QInv ⟨promote l, c⟩ := by
  refine ⟨?_, ?_, uploadingCount_promote_le l h2 h3⟩
  · exact forall_id_lt_of_map_eq l (promote l) c (promote_map_id l) h1
  · rw [promote_map_id l]
    exact h2

lemma applyAction_inv (s : QueueState) (act : QAction) (h : QInv s) :
    QInv (applyAction s act) := by
  obtain ⟨h1, h2, h3⟩ := h
  cases act with
  | enqueue files =>
    obtain ⟨g1, g2, g3, g4⟩ := addFilesLoop_inv files s.counter s.recs [] h1 h2
    exact promote_inv _ _ g1 g2 (le_trans g3 h3)
  | pause id =>
    refine promote_inv _ _ ?_ ?_ (le_trans (uploadingCount_pause_le id s.recs) h3)
    · exact forall_id_lt_of_map_eq s.recs _ s.counter (pauseUpload_map_id id s.recs) h1
    · rw [pauseUpload_map_id id s.recs]
      exact h2
  | resume id =>
    refine promote_inv _ _ ?_ ?_ (le_trans (uploadingCount_resume_le id s.recs) h3)
    · exact forall_id_lt_of_map_eq s.recs _ s.counter (resumeUpload_map_id id s.recs) h1
    · rw [resumeUpload_map_id id s.recs]
      exact h2
  | cancel id =>
    refine promote_inv _ _ ?_ ?_ (le_trans (uploadingCount_cancel_le id s.recs) h3)
    · exact forall_id_lt_of_map_eq s.recs _ s.counter (cancelUpload_map_id id s.recs) h1
    · rw [cancelUpload_map_id id s.recs]
      exact h2

lemma runActions_inv (acts : List QAction) :
    ∀ s : QueueState, QInv s → QInv (runActions s acts) := by
  induction acts with
  | nil => intro s h; exact h
  | cons a acts ih =>
    intro s h
    exact ih (applyAction s a) (applyAction_inv s a h)

-- ====================================================================
-- C7: the concurrency cap
-- ====================================================================

/-- C7: starting from an empty queue, after any sequence of
enqueue/pause/resume/cancel actions (each followed by the promotion effect)
the number of records with status `uploading` never exceeds
`MAX_PARALLEL_FILES = 3`; and enqueueing 5 files at once puts exactly 3
of them into `uploading` and leaves the other 2 `queued`. -/
theorem claim_C7_concurrency_cap :
    (∀ acts : List QAction,
      uploadingCount (runActions initState acts).recs ≤ MAX_PARALLEL_FILES) ∧
    uploadingCount (runActions initState
      [QAction.enqueue [⟨"a", 1, 1⟩, ⟨"b", 1, 1⟩, ⟨"c", 1, 1⟩, ⟨"d", 1, 1⟩,
        ⟨"e", 1, 1⟩]]).recs = 3 ∧
    ((runActions initState
      [QAction.enqueue [⟨"a", 1, 1⟩, ⟨"b", 1, 1⟩, ⟨"c", 1, 1⟩, ⟨"d", 1, 1⟩,
        ⟨"e", 1, 1⟩]]).recs.filter
          (fun u => u.status == UploadStatus.queued)).length = 2 := by
  refine ⟨?_, by decide, by decide⟩
  intro acts
  exact (runActions_inv acts initState
    ⟨by simp [initState], by simp [initState], by simp [initState, uploadingCount]⟩).2.2

-- ====================================================================
-- C8: enqueue rejection behaviour
-- ====================================================================

/-- The records a batch of accepted (not oversize, not resumed) files
appends, with ids drawn consecutively from the counter. -/
def freshRecords (counter : Nat) : List JsFile → List UploadRec
  | [] => []
  | f :: fs => newUploadRec counter f :: freshRecords (counter + 1) fs

/-- C8 as stated is false: when the queue already holds `MAX_FILES = 100`
records, enqueueing two further files rejects both but surfaces a single
"Upload limit reached" warning (the loop pushes one warning and `break`s),
not a distinct warning per rejected file. -/
theorem claim_C8_counterexample :
    ¬ ((addFilesToQueue 100
        ((List.range 100).map (fun n =>
          { id := n, hasFile := true, fileName := "f", fileSize := 1,
            fileLastModified := some 1, status := UploadStatus.queued }))
        [⟨"a", 1, 1⟩, ⟨"b", 1, 1⟩]).2.1.length = 2) ∧
    (addFilesToQueue 100
        ((List.range 100).map (fun n =>
          { id := n, hasFile := true, fileName := "f", fileSize := 1,
            fileLastModified := some 1, status := UploadStatus.queued }))
        [⟨"a", 1, 1⟩, ⟨"b", 1, 1⟩]).2.1 = [Notice.limitReached] ∧
    (addFilesToQueue 100
        ((List.range 100).map (fun n =>
          { id := n, hasFile := true, fileName := "f", fileSize := 1,
            fileLastModified := some 1, status := UploadStatus.queued }))
        [⟨"a", 1, 1⟩, ⟨"b", 1, 1⟩]).1.length = 100 := by
  refine ⟨by decide, by decide, by decide⟩

lemma addFilesLoop_no_awaiting :
    ∀ (files : List JsFile) (counter : Nat) (next : List UploadRec)
      (notices : List Notice),
      next.length + files.length ≤ MAX_FILES →
      (∀ u ∈ next, u.status ≠ UploadStatus.awaitingFile) →
      addFilesLoop counter next notices files =
        (next ++ freshRecords counter
            (files.filter (fun f => !decide (MAX_FILE_SIZE_BYTES < f.size))),
          notices ++ (files.filter
            (fun f => decide (MAX_FILE_SIZE_BYTES < f.size))).map
              (fun f => Notice.oversize f.name),
          counter + (files.filter
            (fun f => !decide (MAX_FILE_SIZE_BYTES < f.size))).length) := by
  intro files
  induction files with
  | nil =>
    intro counter next notices _ _
    simp [addFilesLoop, freshRecords]
  | cons f fs ih =>
    intro counter next notices hlen hstat
    simp only [addFilesLoop]
    rw [if_neg (by simp only [List.length_cons] at hlen; omega)]
    by_cases hsize : MAX_FILE_SIZE_BYTES < f.size
    · rw [if_pos hsize]
      rw [ih counter next (notices ++ [Notice.oversize f.name])
        (by simp only [List.length_cons] at hlen; omega) hstat]
      simp [List.filter_cons, hsize, List.append_assoc]
    · rw [if_neg hsize]
      have hnone : next.findIdx? (matchesAwaiting f) = none := by
        rw [List.findIdx?_eq_none_iff]
        intro u hu
        have hne := hstat u hu
        simp [matchesAwaiting, hne]
      simp only [hnone]
      rw [ih (counter + 1) (next ++ [newUploadRec counter f]) notices
        (by simp at hlen ⊢; omega)
        (by intro u hu
            rcases List.mem_append.mp hu with h | h
            · exact hstat u h
            · rcases List.mem_singleton.mp h with rfl
              simp [newUploadRec])]
      simp [List.filter_cons, hsize, freshRecords, List.append_assoc,
        Prod.mk.injEq] <;> omega

/-- C8 amended: enqueue rejects every file exceeding `MAX_FILE_SIZE_BYTES`
with a distinct per-file warning and without blocking acceptance of the
remaining files — provided the batch fits under the `MAX_FILES` count (and
no `awaiting-file` placeholder intercepts a file): the surfaced warnings
are exactly one `oversize` notice per oversized file, in order, and the
accepted records are exactly the previous ones plus a fresh queued record
per non-oversized file.  Count rejection, however, is NOT per-file: as soon
as the record count has reached `MAX_FILES`, one single `limitReached`
warning is pushed and the remainder of the batch is dropped (see the
counterexample). -/
theorem claim_C8_enqueue_rejections :
    (∀ (counter : Nat) (prev : List UploadRec) (files : List JsFile),
      prev.length + files.length ≤ MAX_FILES →
      (∀ u ∈ prev, u.status ≠ UploadStatus.awaitingFile) →
      (addFilesToQueue counter prev files).2.1 =
        (files.filter (fun f => decide (MAX_FILE_SIZE_BYTES < f.size))).map
          (fun f => Notice.oversize f.name) ∧
      (addFilesToQueue counter prev files).1 =
        prev ++ freshRecords counter
          (files.filter (fun f => !decide (MAX_FILE_SIZE_BYTES < f.size)))) ∧
    (∀ (counter : Nat) (prev : List UploadRec) (f : JsFile) (fs : List JsFile),
      MAX_FILES ≤ prev.length →
      addFilesToQueue counter prev (f :: fs) =
        (prev, [Notice.limitReached], counter)) := by
  constructor
  · intro counter prev files hlen hstat
    rw [addFilesToQueue, addFilesLoop_no_awaiting files counter prev [] hlen hstat]
    exact ⟨by simp, rfl⟩
  · intro counter prev f fs h
    simp [addFilesToQueue, addFilesLoop, if_pos h]

/-- Witness for C8 (amended): a batch of one acceptable file, one oversized
file and another acceptable file on an empty queue yields exactly one
oversize warning and appends exactly the two acceptable files; a batch
hitting a full 100-record queue is dropped with the single limit warning. -/
theorem claim_C8_enqueue_rejections_witness :
    ((addFilesToQueue 0 []
        [⟨"ok1", 1, 5⟩, ⟨"big", MAX_FILE_SIZE_BYTES + 1, 5⟩, ⟨"ok2", 2, 6⟩]).2.1 =
      (([⟨"ok1", 1, 5⟩, ⟨"big", MAX_FILE_SIZE_BYTES + 1, 5⟩,
        ⟨"ok2", 2, 6⟩] : List JsFile).filter
          (fun f => decide (MAX_FILE_SIZE_BYTES < f.size))).map
          (fun f => Notice.oversize f.name) ∧
      (addFilesToQueue 0 []
        [⟨"ok1", 1, 5⟩, ⟨"big", MAX_FILE_SIZE_BYTES + 1, 5⟩, ⟨"ok2", 2, 6⟩]).1 =
        [] ++ freshRecords 0
          (([⟨"ok1", 1, 5⟩, ⟨"big", MAX_FILE_SIZE_BYTES + 1, 5⟩,
            ⟨"ok2", 2, 6⟩] : List JsFile).filter
              (fun f => !decide (MAX_FILE_SIZE_BYTES < f.size)))) ∧
    addFilesToQueue 7
        ((List.range 100).map (fun n =>
          { id := n, hasFile := true, fileName := "f", fileSize := 1,
            fileLastModified := some 1, status := UploadStatus.queued }))
        [⟨"x", 1, 1⟩] =
      ((List.range 100).map (fun n =>
          { id := n, hasFile := true, fileName := "f", fileSize := 1,
            fileLastModified := some 1, status := UploadStatus.queued }),
        [Notice.limitReached], 7) :=
  ⟨claim_C8_enqueue_rejections.1 0 []
      [⟨"ok1", 1, 5⟩, ⟨"big", MAX_FILE_SIZE_BYTES + 1, 5⟩, ⟨"ok2", 2, 6⟩]
      (by norm_num [MAX_FILES]) (by simp),
    claim_C8_enqueue_rejections.2 7 _ ⟨"x", 1, 1⟩ []
      (by simp [MAX_FILES])⟩
